import Mathlib

/-!
Verification of `pso_multidiff.py` (mpipso example pipeline).

We give a shallow embedding of the numerical kernel of the script:
the halo-mass catalogue loader (`load_halo_masses`, built on
`np.array_split` and `jnp.linspace`), the stellar-mass-function helpers
(`calc_smf_cdf`, `calc_smf_bin`) and the model methods
`calc_partial_sumstats_from_params` and `calc_loss_from_sumstats` of
`MySMFModel`.  Machine floating point is embedded as exact real
arithmetic; arrays are embedded as `List ℝ`.
-/

open MeasureTheory

noncomputable section

/-- Python `ParamTuple(log_shmrat, sigma_logsm)`: the two model parameters.
`calc_smf_bin` unpacks its `params` argument with `ParamTuple(*params)`,
so a parameter vector is exactly a pair of reals. -/
structure ParamTuple where
  log_shmrat : ℝ
  sigma_logsm : ℝ

/-- Embedding of `jnp.linspace(a, b, n)`: `n` evenly spaced points from `a` to `b`
inclusive.  For `n = 1` numpy returns `[a]`; the formula below agrees
because Lean's division by zero returns `0`. -/
def linspace (a b : ℝ) (n : ℕ) : List ℝ :=
  (List.range n).map (fun i : ℕ => a + (i : ℝ) * (b - a) / ((n : ℝ) - 1))

/-- The block sizes used by `np.array_split(xs, S)` on an `n`-element
array: the first `n % S` blocks have `n / S + 1` elements, the remaining
blocks have `n / S` elements. -/
def splitSizes (n S : ℕ) : List ℕ :=
  (List.range S).map (fun i => if i < n % S then n / S + 1 else n / S)

/-- Cut a list into consecutive blocks of the given sizes. -/
def splitBySizes {α : Type} : List ℕ → List α → List (List α)
  | [], _ => []
  | k :: ks, xs => xs.take k :: splitBySizes ks (xs.drop k)

/-- Embedding of `np.array_split(xs, S)`: split `xs` into `S` contiguous blocks whose
sizes differ by at most one, the larger blocks first. -/
def array_split {α : Type} (xs : List α) (S : ℕ) : List (List α) :=
  splitBySizes (splitSizes xs.length S) xs

/-- The full (unsplit) halo-mass array built inside `load_halo_masses`:
`q = jnp.linspace(0, qmax, num_halos)` and
`mhalo = mmin * (1 - q) ** (1/(slope+1))` (real power). -/
def mhaloFull (num_halos : ℕ) (slope mmin qmax : ℝ) : List ℝ :=
  (linspace 0 qmax num_halos).map (fun q => mmin * (1 - q) ^ (1 / (slope + 1)))

/-- Embedding of `load_halo_masses(num_halos, slope, mmin, qmax, comm)`: build the full
mass array, then return `np.array_split(mhalo, comm.size)[comm.rank]`. -/
def load_halo_masses (num_halos : ℕ) (slope mmin qmax : ℝ)
    (size rank : ℕ) : List ℝ :=
  (array_split (mhaloFull num_halos slope mmin qmax) size).getD rank []

/-- The error function, `jax.scipy.special.erf`:
`erf x = (2/√π) ∫ t in 0..x, exp (-t²)`. -/
def erf (x : ℝ) : ℝ :=
  (2 / Real.sqrt Real.pi) * ∫ t in (0 : ℝ)..x, Real.exp (-t ^ 2)

/-- Embedding of `calc_smf_cdf(logsm, mean_logsm, sigma_logsm)` from the script:
`0.5 * (1 + erf((logsm - mean_logsm)/(sqrt(2) * sigma_logsm)))`. -/
def calc_smf_cdf (logsm mean_logsm sigma_logsm : ℝ) : ℝ :=
  0.5 * (1 + erf ((logsm - mean_logsm) / (Real.sqrt 2 * sigma_logsm)))

/-- Embedding of `calc_smf_bin(params, logsm_low, logsm_high, volume, log_halo_masses)`:
with `mean_logsm = log_halo_masses + log_shmrat` (elementwise over the
halo array), return
`sum(cdf_high - cdf_low) / volume / (logsm_high - logsm_low)`. -/
def calc_smf_bin (params : ParamTuple) (logsm_low logsm_high volume : ℝ)
    (log_halo_masses : List ℝ) : ℝ :=
  ((log_halo_masses.map (fun m =>
      calc_smf_cdf logsm_high (m + params.log_shmrat) params.sigma_logsm -
      calc_smf_cdf logsm_low (m + params.log_shmrat) params.sigma_logsm)).sum)
    / volume / (logsm_high - logsm_low)

/-- The `dynamic_data` dict of the driver: the four keys the model
methods read. -/
structure DynamicData where
  log_halo_masses : List ℝ
  smf_bin_edges : List ℝ
  volume : ℝ
  target_sumstats : List ℝ

/-- The `MySMFModel` dataclass: `dynamic_data` plus the
`loss_func_has_aux` flag, whose dataclass default is `False`. -/
structure MySMFModel where
  dynamic_data : DynamicData
  loss_func_has_aux : Bool := false

/-- The `for logsm_high in bin_edges[1:]` loop body of
`calc_partial_sumstats_from_params`: starting from `logsm_low`, emit
`calc_smf_bin` for each consecutive pair of bin edges. -/
def smfLoop (params : ParamTuple) (volume : ℝ) (masses : List ℝ) :
    ℝ → List ℝ → List ℝ
  | _, [] => []
  | logsm_low, logsm_high :: rest =>
      calc_smf_bin params logsm_low logsm_high volume masses ::
        smfLoop params volume masses logsm_high rest

/-- Embedding of `MySMFModel.calc_partial_sumstats_from_params(self, params)`: read
`smf_bin_edges`, `log_halo_masses` and `volume` from `dynamic_data`, and
collect `calc_smf_bin` over consecutive bin-edge pairs.  (On an empty
edge array the script would fault at `bin_edges[0]`; we return `[]`.) -/
def MySMFModel.calc_partial_sumstats_from_params (self : MySMFModel)
    (params : ParamTuple) : List ℝ :=
  match self.dynamic_data.smf_bin_edges with
  | [] => []
  | e0 :: rest =>
      smfLoop params self.dynamic_data.volume
        self.dynamic_data.log_halo_masses e0 rest

/-- Embedding of `MySMFModel.calc_loss_from_sumstats(self, sumstats, sumstats_aux=None)`:
`jnp.mean((log10(sumstats) - log10(target_sumstats))**2)`, the mean taken
over the elementwise difference array.  The `sumstats_aux` argument is
accepted and never read. -/
def MySMFModel.calc_loss_from_sumstats (self : MySMFModel)
    (sumstats : List ℝ) (sumstats_aux : Option (List ℝ)) : ℝ :=
  let d := List.zipWith
    (fun s t => (Real.logb 10 s - Real.logb 10 t) ^ 2)
    sumstats self.dynamic_data.target_sumstats
  d.sum / d.length

/-- The `target_sumstats` array of the driver: the SMF at the true
parameters `(-2.0, 0.2)`, hard-coded in the script. -/
def driver_target_sumstats : List ℝ :=
  [2.30178721e-2, 1.69728529e-2, 1.16054425e-2, 7.10532581e-3,
   3.77187086e-3, 1.69136131e-3, 6.28149020e-4, 1.90466686e-4,
   4.66692982e-5, 9.17260695e-6]

/-- The `data` dict built in the driver (`__main__` block):
`log_halo_masses = jnp.log10(load_halo_masses(num_halos, comm=...))`,
`smf_bin_edges = jnp.linspace(9, 10, 11)`, `volume = 10.0 * num_halos`,
and the hard-coded `target_sumstats`. -/
def driverData (num_halos : ℕ) (size rank : ℕ) : DynamicData where
  log_halo_masses :=
    (load_halo_masses num_halos (-2) ((10 : ℝ) ^ (10 : ℕ)) 0.95 size rank).map
      (Real.logb 10)
  smf_bin_edges := linspace 9 10 11
  volume := 10 * num_halos
  target_sumstats := driver_target_sumstats

/-- State-passing form of the `calc_partial_sumstats_from_params` method
call: the body only reads `self.dynamic_data` (three dict lookups) and
performs no assignment, so the call returns the result together with the
object state after the call. -/
def MySMFModel.calc_partial_sumstats_run (self : MySMFModel)
    (params : ParamTuple) : List ℝ × MySMFModel :=
  let bin_edges := self.dynamic_data.smf_bin_edges
  let log_halo_masses := self.dynamic_data.log_halo_masses
  let volume := self.dynamic_data.volume
  (match bin_edges with
   | [] => []
   | e0 :: rest => smfLoop params volume log_halo_masses e0 rest,
   self)

/-- State-passing form of the `calc_loss_from_sumstats` method call: the
body only reads `self.dynamic_data["target_sumstats"]` and performs no
assignment. -/
def MySMFModel.calc_loss_run (self : MySMFModel) (sumstats : List ℝ)
    (sumstats_aux : Option (List ℝ)) : ℝ × MySMFModel :=
  let target := self.dynamic_data.target_sumstats
  let d := List.zipWith
    (fun s t => (Real.logb 10 s - Real.logb 10 t) ^ 2) sumstats target
  (d.sum / d.length, self)

/-- Elementwise sum of a list of length-`K` real vectors (the MPI
all-reduce that turns partial sumstats into total sumstats). -/
def vecSum (K : ℕ) (vs : List (List ℝ)) : List ℝ :=
  vs.foldr (List.zipWith (· + ·)) (List.replicate K 0)

end

/-! ### Helper lemmas on `array_split` -/

lemma sum_if_lt (S m q : ℕ) :
    ((List.range S).map (fun i => if i < m then q + 1 else q)).sum = S * q + min m S := by
  induction S with
  | zero => simp
  | succ S ih =>
    rw [List.range_succ, List.map_append, List.sum_append, ih]
    by_cases h : S < m
    · rw [List.map_singleton, List.sum_singleton, if_pos h,
        min_eq_right (by omega), min_eq_right (by omega), Nat.succ_mul]
      omega
    · rw [List.map_singleton, List.sum_singleton, if_neg h,
        min_eq_left (by omega), min_eq_left (by omega), Nat.succ_mul]
      omega

lemma splitSizes_sum (n S : ℕ) (hS : 1 ≤ S) : (splitSizes n S).sum = n := by
  have h1 := Nat.div_add_mod n S
  have h2 : n % S < S := Nat.mod_lt _ hS
  rw [splitSizes, sum_if_lt]
  omega

lemma splitBySizes_join {α : Type} :
    ∀ (ks : List ℕ) (xs : List α), (splitBySizes ks xs).flatten = xs.take ks.sum
  | [], xs => by simp [splitBySizes]
  | k :: ks, xs => by
    simp only [splitBySizes, List.flatten_cons, splitBySizes_join ks, List.sum_cons,
      List.take_add]

lemma splitBySizes_length {α : Type} :
    ∀ (ks : List ℕ) (xs : List α), (splitBySizes ks xs).length = ks.length
  | [], _ => rfl
  | k :: ks, xs => by simp [splitBySizes, splitBySizes_length ks]

lemma splitBySizes_map_length {α : Type} :
    ∀ (ks : List ℕ) (xs : List α), ks.sum ≤ xs.length →
      (splitBySizes ks xs).map List.length = ks
  | [], _, _ => rfl
  | k :: ks, xs, h => by
    simp only [List.sum_cons] at h
    simp only [splitBySizes, List.map_cons, List.length_take]
    have h1 : min k xs.length = k := by omega
    rw [h1, splitBySizes_map_length ks (xs.drop k) (by simp; omega)]

lemma splitSizes_length (n S : ℕ) : (splitSizes n S).length = S := by
  simp [splitSizes]

lemma array_split_length {α : Type} (xs : List α) (S : ℕ) :
    (array_split xs S).length = S := by
  rw [array_split, splitBySizes_length, splitSizes_length]

lemma array_split_flatten {α : Type} (xs : List α) (S : ℕ) (hS : 1 ≤ S) :
    (array_split xs S).flatten = xs := by
  rw [array_split, splitBySizes_join, splitSizes_sum _ _ hS, List.take_length]

lemma array_split_map_length {α : Type} (xs : List α) (S : ℕ) (hS : 1 ≤ S) :
    (array_split xs S).map List.length = splitSizes xs.length S := by
  rw [array_split, splitBySizes_map_length]
  rw [splitSizes_sum _ _ hS]

lemma length_getD_map {α : Type} :
    ∀ (l : List (List α)) (i : ℕ), (l.map List.length).getD i 0 = (l.getD i []).length
  | [], i => by simp
  | x :: l, 0 => by simp
  | x :: l, i + 1 => by simpa using length_getD_map l i

lemma splitSizes_getD (n S i : ℕ) (hi : i < S) :
    (splitSizes n S).getD i 0 = if i < n % S then n / S + 1 else n / S := by
  simp [splitSizes, List.getD_eq_getElem?_getD, List.getElem?_map, List.getElem?_range hi]

lemma array_split_getD_length {α : Type} (xs : List α) (S i : ℕ) (hS : 1 ≤ S) (hi : i < S) :
    ((array_split xs S).getD i []).length =
      if i < xs.length % S then xs.length / S + 1 else xs.length / S := by
  rw [← length_getD_map, array_split_map_length _ _ hS, splitSizes_getD _ _ _ hi]

lemma linspace_length (a b : ℝ) (n : ℕ) : (linspace a b n).length = n := by
  rw [linspace, List.length_map, List.length_range]

lemma mhaloFull_length (n : ℕ) (slope mmin qmax : ℝ) :
    (mhaloFull n slope mmin qmax).length = n := by
  rw [mhaloFull, List.length_map, linspace_length]

/-! ### Helper lemmas on `calc_smf_bin` and the bin loop -/

lemma calc_smf_bin_append (p : ParamTuple) (lo hi V : ℝ) (xs ys : List ℝ) :
    calc_smf_bin p lo hi V (xs ++ ys) =
      calc_smf_bin p lo hi V xs + calc_smf_bin p lo hi V ys := by
  simp [calc_smf_bin, List.map_append, List.sum_append, add_div]

lemma calc_smf_bin_nil (p : ParamTuple) (lo hi V : ℝ) :
    calc_smf_bin p lo hi V [] = 0 := by
  simp [calc_smf_bin]

lemma smfLoop_length (p : ParamTuple) (V : ℝ) (ms : List ℝ) :
    ∀ (rest : List ℝ) (lo : ℝ), (smfLoop p V ms lo rest).length = rest.length
  | [], _ => rfl
  | hi :: rest, lo => by simp [smfLoop, smfLoop_length p V ms rest]

lemma smfLoop_getD (p : ParamTuple) (V : ℝ) (ms : List ℝ) :
    ∀ (rest : List ℝ) (lo : ℝ) (i : ℕ), i < rest.length →
      (smfLoop p V ms lo rest).getD i 0 =
        calc_smf_bin p ((lo :: rest).getD i 0) (rest.getD i 0) V ms
  | [], _, i, h => by simp at h
  | hi :: rest, lo, 0, _ => rfl
  | hi :: rest, lo, i + 1, h => by
    simpa [smfLoop] using smfLoop_getD p V ms rest hi i (by simpa using h)

lemma smfLoop_append (p : ParamTuple) (V : ℝ) (xs ys : List ℝ) :
    ∀ (rest : List ℝ) (lo : ℝ),
      smfLoop p V (xs ++ ys) lo rest =
        List.zipWith (· + ·) (smfLoop p V xs lo rest) (smfLoop p V ys lo rest)
  | [], _ => rfl
  | hi :: rest, lo => by
    simp [smfLoop, calc_smf_bin_append, smfLoop_append p V xs ys rest]

lemma smfLoop_nil_masses (p : ParamTuple) (V : ℝ) :
    ∀ (rest : List ℝ) (lo : ℝ),
      smfLoop p V [] lo rest = List.replicate rest.length 0
  | [], _ => rfl
  | hi :: rest, lo => by
    simp [smfLoop, calc_smf_bin_nil, smfLoop_nil_masses p V rest, List.replicate_succ]

lemma vecSum_smfLoop (p : ParamTuple) (V : ℝ) (rest : List ℝ) (lo : ℝ) :
    ∀ (shards : List (List ℝ)),
      vecSum rest.length (shards.map (fun sh => smfLoop p V sh lo rest)) =
        smfLoop p V shards.flatten lo rest
  | [] => by simp [vecSum, smfLoop_nil_masses]
  | sh :: shards => by
    simp only [List.map_cons, vecSum, List.foldr_cons, List.flatten_cons]
    have ih := vecSum_smfLoop p V rest lo shards
    simp only [vecSum] at ih
    rw [ih, ← smfLoop_append]

lemma vecSum_zero_of_all_nil :
    ∀ (vs : List (List ℝ)), (∀ v ∈ vs, v = []) → vecSum 0 vs = []
  | [], _ => rfl
  | v :: vs, h => by
    have h1 : v = [] := h v (by simp)
    have h2 := vecSum_zero_of_all_nil vs (fun w hw => h w (by simp [hw]))
    simp only [vecSum, List.foldr_cons] at h2 ⊢
    rw [h2, h1]
    rfl

lemma calc_partial_length (m : MySMFModel) (p : ParamTuple) :
    (m.calc_partial_sumstats_from_params p).length =
      m.dynamic_data.smf_bin_edges.length - 1 := by
  rcases hE : m.dynamic_data.smf_bin_edges with _ | ⟨e0, rest⟩ <;>
    simp [MySMFModel.calc_partial_sumstats_from_params, hE, smfLoop_length]

/-! ### Helper lemmas for the loss -/

lemma sum_zipWith_sq_nonneg (f : ℝ → ℝ) :
    ∀ (s t : List ℝ), 0 ≤ (List.zipWith (fun a b => (f a - f b) ^ 2) s t).sum
  | [], _ => by simp
  | _ :: _, [] => by simp
  | a :: s, b :: t => by
    simpa using add_nonneg (sq_nonneg (f a - f b)) (sum_zipWith_sq_nonneg f s t)

lemma sum_zipWith_sq_self (f : ℝ → ℝ) :
    ∀ (t : List ℝ), (List.zipWith (fun a b => (f a - f b) ^ 2) t t).sum = 0
  | [] => by simp
  | a :: t => by simp [sum_zipWith_sq_self f t]

/-! ### Analytic helper lemmas: the error function and the SMF CDF -/

lemma gauss_cont : Continuous (fun t : ℝ => Real.exp (-t ^ 2)) :=
  Real.continuous_exp.comp (continuous_pow 2).neg

lemma gauss_intervalIntegrable (a b : ℝ) :
    IntervalIntegrable (fun t : ℝ => Real.exp (-t ^ 2)) volume a b :=
  gauss_cont.intervalIntegrable a b

lemma gauss_integral_nonneg {a b : ℝ} (hab : a ≤ b) :
    0 ≤ ∫ t in a..b, Real.exp (-t ^ 2) :=
  intervalIntegral.integral_nonneg hab (fun u _ => (Real.exp_pos _).le)

lemma gauss_integral_mono : Monotone (fun x => ∫ t in (0 : ℝ)..x, Real.exp (-t ^ 2)) := by
  intro x y hxy
  have h := intervalIntegral.integral_add_adjacent_intervals
    (gauss_intervalIntegrable 0 x) (gauss_intervalIntegrable x y)
  have h2 : 0 ≤ ∫ t in x..y, Real.exp (-t ^ 2) := gauss_integral_nonneg hxy
  simp only at h
  linarith

lemma gauss_integral_le_of_nonneg {x : ℝ} (hx : 0 ≤ x) :
    ∫ t in (0 : ℝ)..x, Real.exp (-t ^ 2) ≤ Real.sqrt Real.pi / 2 := by
  rw [intervalIntegral.integral_of_le hx]
  have h1 : ∫ t in Set.Ioc (0 : ℝ) x, Real.exp (-t ^ 2) ≤
      ∫ t in Set.Ioi (0 : ℝ), Real.exp (-t ^ 2) := by
    apply setIntegral_mono_set
    · have := (integrable_exp_neg_mul_sq (one_pos)).integrableOn
        (s := Set.Ioi (0 : ℝ))
      simpa using this
    · filter_upwards with t using (Real.exp_pos _).le
    · filter_upwards with t ht using Set.Ioc_subset_Ioi_self ht
  have h2 : ∫ t in Set.Ioi (0 : ℝ), Real.exp (-t ^ 2) = Real.sqrt Real.pi / 2 := by
    have := integral_gaussian_Ioi 1
    simpa using this
  calc ∫ t in Set.Ioc (0 : ℝ) x, Real.exp (-t ^ 2) ≤
      ∫ t in Set.Ioi (0 : ℝ), Real.exp (-t ^ 2) := h1
    _ = Real.sqrt Real.pi / 2 := h2

lemma gauss_integral_neg_eq {x : ℝ} :
    ∫ t in x..(0 : ℝ), Real.exp (-t ^ 2) = ∫ t in (0 : ℝ)..(-x), Real.exp (-t ^ 2) := by
  have h := intervalIntegral.integral_comp_neg (a := (0 : ℝ)) (b := -x)
    (fun t => Real.exp (-t ^ 2))
  simp only [neg_neg, neg_zero] at h
  rw [← h]
  congr 1
  ext t
  rw [neg_sq]

lemma gauss_integral_le (x : ℝ) :
    ∫ t in (0 : ℝ)..x, Real.exp (-t ^ 2) ≤ Real.sqrt Real.pi / 2 := by
  rcases le_total 0 x with hx | hx
  · exact gauss_integral_le_of_nonneg hx
  · rw [intervalIntegral.integral_symm x 0]
    have h1 : 0 ≤ ∫ t in x..(0 : ℝ), Real.exp (-t ^ 2) := gauss_integral_nonneg hx
    have h2 : 0 ≤ Real.sqrt Real.pi := Real.sqrt_nonneg _
    linarith

lemma gauss_integral_ge (x : ℝ) :
    -(Real.sqrt Real.pi / 2) ≤ ∫ t in (0 : ℝ)..x, Real.exp (-t ^ 2) := by
  rcases le_total 0 x with hx | hx
  · have h1 := gauss_integral_nonneg hx
    have h2 : 0 ≤ Real.sqrt Real.pi := Real.sqrt_nonneg _
    linarith
  · rw [intervalIntegral.integral_symm x 0]
    have h1 : ∫ t in x..(0 : ℝ), Real.exp (-t ^ 2) ≤ Real.sqrt Real.pi / 2 := by
      rw [gauss_integral_neg_eq]
      exact gauss_integral_le_of_nonneg (by linarith)
    linarith

lemma sqrt_pi_pos : 0 < Real.sqrt Real.pi := Real.sqrt_pos.2 Real.pi_pos

lemma erf_le_one (x : ℝ) : erf x ≤ 1 := by
  rw [erf]
  have h := gauss_integral_le x
  have hpos : (0 : ℝ) < 2 / Real.sqrt Real.pi := div_pos two_pos sqrt_pi_pos
  have hne : Real.sqrt Real.pi ≠ 0 := ne_of_gt sqrt_pi_pos
  have heq : (2 / Real.sqrt Real.pi) * (Real.sqrt Real.pi / 2) = 1 := by
    field_simp
  calc (2 / Real.sqrt Real.pi) * ∫ t in (0 : ℝ)..x, Real.exp (-t ^ 2)
      ≤ (2 / Real.sqrt Real.pi) * (Real.sqrt Real.pi / 2) :=
        mul_le_mul_of_nonneg_left h hpos.le
    _ = 1 := heq

lemma neg_one_le_erf (x : ℝ) : -1 ≤ erf x := by
  rw [erf]
  have h := gauss_integral_ge x
  have hpos : (0 : ℝ) < 2 / Real.sqrt Real.pi := div_pos two_pos sqrt_pi_pos
  have hne : Real.sqrt Real.pi ≠ 0 := ne_of_gt sqrt_pi_pos
  have heq : (2 / Real.sqrt Real.pi) * (-(Real.sqrt Real.pi / 2)) = -1 := by
    field_simp
    ring
  calc (-1 : ℝ) = (2 / Real.sqrt Real.pi) * (-(Real.sqrt Real.pi / 2)) := heq.symm
    _ ≤ (2 / Real.sqrt Real.pi) * ∫ t in (0 : ℝ)..x, Real.exp (-t ^ 2) :=
        mul_le_mul_of_nonneg_left h hpos.le

lemma erf_monotone : Monotone erf := fun x y hxy =>
  mul_le_mul_of_nonneg_left (gauss_integral_mono hxy)
    (div_pos two_pos sqrt_pi_pos).le

lemma calc_smf_cdf_nonneg (logsm mean sigma : ℝ) :
    0 ≤ calc_smf_cdf logsm mean sigma := by
  rw [calc_smf_cdf]
  have h := neg_one_le_erf ((logsm - mean) / (Real.sqrt 2 * sigma))
  linarith

lemma calc_smf_cdf_le_one (logsm mean sigma : ℝ) :
    calc_smf_cdf logsm mean sigma ≤ 1 := by
  rw [calc_smf_cdf]
  have h := erf_le_one ((logsm - mean) / (Real.sqrt 2 * sigma))
  linarith

lemma calc_smf_cdf_mono (mean sigma : ℝ) (hs : 0 < sigma) :
    Monotone (fun logsm => calc_smf_cdf logsm mean sigma) := by
  intro x y hxy
  have hden : 0 < Real.sqrt 2 * sigma :=
    mul_pos (Real.sqrt_pos.2 two_pos) hs
  have harg : (x - mean) / (Real.sqrt 2 * sigma) ≤
      (y - mean) / (Real.sqrt 2 * sigma) :=
    div_le_div_of_nonneg_right (by linarith) hden.le
  have := erf_monotone harg
  simp only [calc_smf_cdf]
  linarith

/-! ### Helper lemmas for global sortedness of the halo catalogue -/

lemma mem_getD_mem_flatten {α : Type} (L : List (List α)) (i : ℕ) (x : α)
    (hx : x ∈ L.getD i []) : x ∈ L.flatten := by
  by_cases hi : i < L.length
  · rw [List.getD_eq_getElem?_getD, List.getElem?_eq_getElem hi] at hx
    exact List.mem_flatten.2 ⟨L[i], List.getElem_mem hi, hx⟩
  · rw [List.getD_eq_default _ _ (by omega)] at hx
    simp at hx

lemma getD_mem_or_nil {α : Type} (L : List (List α)) (r : ℕ) :
    L.getD r [] ∈ L ∨ L.getD r [] = [] := by
  by_cases hr : r < L.length
  · left
    rw [List.getD_eq_getElem?_getD, List.getElem?_eq_getElem hr]
    exact List.getElem_mem hr
  · right
    exact List.getD_eq_default _ _ (by omega)

lemma getD_eq_getElem_of_lt {α : Type} (L : List (List α)) (r : ℕ)
    (hr : r < L.length) : L.getD r [] = L[r] := by
  rw [List.getD_eq_getElem?_getD, List.getElem?_eq_getElem hr]
  rfl

lemma sorted_blocks_of_sorted_flatten :
    ∀ (L : List (List ℝ)), L.flatten.Sorted (· ≤ ·) →
      ∀ l ∈ L, l.Sorted (· ≤ ·)
  | [], _, l, hl => absurd hl (List.not_mem_nil l)
  | l0 :: L, h, l, hl => by
    rw [List.flatten_cons] at h
    have h' := List.pairwise_append.1 h
    rcases List.mem_cons.1 hl with rfl | hl'
    · exact h'.1
    · exact sorted_blocks_of_sorted_flatten L h'.2.1 l hl'

lemma cross_blocks_of_sorted_flatten :
    ∀ (L : List (List ℝ)), L.flatten.Sorted (· ≤ ·) →
      ∀ i j, i < j → ∀ x ∈ L.getD i [], ∀ y ∈ L.getD j [], x ≤ y
  | [], _, i, j, _, x, hx, y, _ => by simp at hx
  | l0 :: L, h, 0, j, hij, x, hx, y, hy => by
    rw [List.flatten_cons] at h
    have h' := List.pairwise_append.1 h
    obtain ⟨j', rfl⟩ : ∃ j', j = j' + 1 := ⟨j - 1, by omega⟩
    rw [List.getD_cons_zero] at hx
    rw [List.getD_cons_succ] at hy
    exact h'.2.2 x hx y (mem_getD_mem_flatten L j' y hy)
  | l0 :: L, h, i + 1, j, hij, x, hx, y, hy => by
    rw [List.flatten_cons] at h
    have h' := List.pairwise_append.1 h
    obtain ⟨j', rfl⟩ : ∃ j', j = j' + 1 := ⟨j - 1, by omega⟩
    rw [List.getD_cons_succ] at hx hy
    exact cross_blocks_of_sorted_flatten L h'.2.1 i j' (by omega) x hx y hy

lemma sorted_headI_le :
    ∀ (l : List ℝ), l.Sorted (· ≤ ·) → ∀ x ∈ l, l.headI ≤ x
  | [], _, x, hx => absurd hx (List.not_mem_nil x)
  | a :: l, h, x, hx => by
    rcases List.mem_cons.1 hx with rfl | hx'
    · exact le_refl x
    · exact List.rel_of_sorted_cons h x hx'

lemma sorted_le_getLastD :
    ∀ (l : List ℝ) (d : ℝ), l.Sorted (· ≤ ·) → ∀ x ∈ l, x ≤ l.getLastD d
  | [], _, _, x, hx => absurd hx (List.not_mem_nil x)
  | [a], d, _, x, hx => by
    simp only [List.mem_singleton] at hx
    subst hx
    simp [List.getLastD]
  | a :: b :: l, d, h, x, hx => by
    have h' : (b :: l).Sorted (· ≤ ·) := h.of_cons
    have hrec := sorted_le_getLastD (b :: l) a h'
    rw [List.getLastD_cons]
    rcases List.mem_cons.1 hx with rfl | hx'
    · exact le_trans (List.rel_of_sorted_cons h b (by simp)) (hrec b (by simp))
    · exact hrec x hx'

lemma headI_mem : ∀ (l : List ℝ), l ≠ [] → l.headI ∈ l
  | [], h => absurd rfl h
  | a :: l, _ => by simp

lemma getLastD_mem : ∀ (l : List ℝ) (d : ℝ), l ≠ [] → l.getLastD d ∈ l
  | [], _, h => absurd rfl h
  | [a], d, _ => by simp [List.getLastD]
  | a :: b :: l, d, _ => by
    rw [List.getLastD_cons]
    exact List.mem_cons_of_mem a (getLastD_mem (b :: l) a (by simp))

lemma array_split_blocks_ne_nil {α : Type} (xs : List α) (S : ℕ)
    (hS : 1 ≤ S) (hSn : S ≤ xs.length) :
    ∀ sh ∈ array_split xs S, sh ≠ [] := by
  intro sh hsh
  have hlen : sh.length ∈ (array_split xs S).map List.length :=
    List.mem_map_of_mem _ hsh
  rw [array_split_map_length _ _ hS, splitSizes] at hlen
  obtain ⟨i, _, hval⟩ := List.mem_map.1 hlen
  have h1 : 1 ≤ xs.length / S := (Nat.one_le_div_iff (by omega)).2 hSn
  have h2 : 1 ≤ sh.length := by
    split_ifs at hval <;> omega
  exact List.ne_nil_of_length_pos (by omega)

lemma mhaloFull_sorted (n : ℕ) (mmin qmax : ℝ) (hm : 0 ≤ mmin)
    (h0 : 0 ≤ qmax) (h1 : qmax < 1) :
    (mhaloFull n (-2) mmin qmax).Sorted (· ≤ ·) := by
  rw [List.Sorted, List.pairwise_iff_getElem]
  intro i j hi hj hij
  simp only [mhaloFull, linspace, List.getElem_map, List.getElem_range,
    List.length_map, List.length_range] at hi hj ⊢
  have hn2 : 2 ≤ n := by omega
  have hden : (0 : ℝ) < (n : ℝ) - 1 := by
    have : (2 : ℝ) ≤ (n : ℝ) := by exact_mod_cast hn2
    linarith
  have hij' : (i : ℝ) ≤ (j : ℝ) := by exact_mod_cast hij.le
  have hjn : (j : ℝ) ≤ (n : ℝ) - 1 := by
    have : (j : ℝ) + 1 ≤ (n : ℝ) := by exact_mod_cast hj
    linarith
  set qi : ℝ := 0 + (i : ℝ) * (qmax - 0) / ((n : ℝ) - 1) with hqi_def
  set qj : ℝ := 0 + (j : ℝ) * (qmax - 0) / ((n : ℝ) - 1) with hqj_def
  have hqi_nonneg : 0 ≤ qi := by
    rw [hqi_def]
    simp only [zero_add, sub_zero]
    exact div_nonneg (mul_nonneg (Nat.cast_nonneg i) h0) hden.le
  have hqij : qi ≤ qj := by
    rw [hqi_def, hqj_def]
    have := mul_le_mul_of_nonneg_right hij' h0
    simp only [zero_add, sub_zero]
    exact div_le_div_of_nonneg_right (by linarith) hden.le
  have hqj_le : qj ≤ qmax := by
    rw [hqj_def]
    simp only [zero_add, sub_zero]
    rw [div_le_iff hden]
    nlinarith
  have hpos_j : (0 : ℝ) < 1 - qj := by linarith
  have hpos_i : (0 : ℝ) < 1 - qi := by linarith
  have hexp : (1 : ℝ) / (-2 + 1) = -1 := by norm_num
  rw [hexp, Real.rpow_neg_one, Real.rpow_neg_one]
  have hinv : (1 - qi)⁻¹ ≤ (1 - qj)⁻¹ := by
    apply inv_le_inv_of_le hpos_j
    linarith
  exact mul_le_mul_of_nonneg_left hinv hm

/-! ### Claim theorems -/

/-- C1: the per-worker statistic is additive over data partitions.  For
every parameter vector, bin-edge sequence, positive volume, and every
partition of a full log-halo-mass array into shards, the elementwise sum
over shards of `calc_partial_sumstats_from_params` (each shard placed in
`dynamic_data["log_halo_masses"]`) equals the partial sumstats computed
from the whole array in one call, exactly over real arithmetic. -/
theorem partial_sumstats_additive_over_shards (params : ParamTuple)
    (edges : List ℝ) (volume : ℝ) (target : List ℝ) (hV : 0 < volume)
    (shards : List (List ℝ)) :
    vecSum (edges.length - 1)
      (shards.map (fun sh =>
        (MySMFModel.mk ⟨sh, edges, volume, target⟩
            false).calc_partial_sumstats_from_params params)) =
      (MySMFModel.mk ⟨shards.flatten, edges, volume, target⟩
          false).calc_partial_sumstats_from_params params := by
  cases edges with
  | nil =>
    simp only [MySMFModel.calc_partial_sumstats_from_params]
    exact vecSum_zero_of_all_nil _ (by simp)
  | cons e0 rest =>
    simp only [MySMFModel.calc_partial_sumstats_from_params, List.length_cons,
      Nat.add_sub_cancel]
    exact vecSum_smfLoop params volume rest e0 shards

/-- Witness for C1 at a concrete input: two shards of one halo each,
two bin edges, volume 1. -/
theorem partial_sumstats_additive_over_shards_witness :
    (0 : ℝ) < 1 ∧
    vecSum (([(9 : ℝ), 10] : List ℝ).length - 1)
      (([[(11 : ℝ)], [(12 : ℝ)]] : List (List ℝ)).map (fun sh =>
        (MySMFModel.mk ⟨sh, [(9 : ℝ), 10], 1, []⟩
            false).calc_partial_sumstats_from_params ⟨-2, 0.2⟩)) =
      (MySMFModel.mk ⟨([[(11 : ℝ)], [(12 : ℝ)]] : List (List ℝ)).flatten,
          [(9 : ℝ), 10], 1, []⟩
          false).calc_partial_sumstats_from_params ⟨-2, 0.2⟩ :=
  ⟨by norm_num,
   partial_sumstats_additive_over_shards ⟨-2, 0.2⟩ [(9 : ℝ), 10] 1 []
     (by norm_num) [[(11 : ℝ)], [(12 : ℝ)]]⟩

/-- C2: `calc_loss_from_sumstats` returns the mean squared error in
log10 space: `(1/K) * Σ (log10 s[k] - log10 t[k])²` where `K` is the
common length; the result is nonnegative and is `0` when the sumstats
equal the target elementwise. -/
theorem loss_is_log_mse (m : MySMFModel) (s : List ℝ) (aux : Option (List ℝ))
    (hs : ∀ x ∈ s, 0 < x)
    (ht : ∀ x ∈ m.dynamic_data.target_sumstats, 0 < x)
    (hlen : s.length = m.dynamic_data.target_sumstats.length) :
    m.calc_loss_from_sumstats s aux =
      (1 / (s.length : ℝ)) *
        (List.zipWith (fun a b => (Real.logb 10 a - Real.logb 10 b) ^ 2) s
          m.dynamic_data.target_sumstats).sum ∧
    0 ≤ m.calc_loss_from_sumstats s aux ∧
    (s = m.dynamic_data.target_sumstats →
      m.calc_loss_from_sumstats s aux = 0) := by
  have hd : (List.zipWith (fun a b => (Real.logb 10 a - Real.logb 10 b) ^ 2) s
      m.dynamic_data.target_sumstats).length = s.length := by
    rw [List.length_zipWith, hlen, min_self]
  refine ⟨?_, ?_, ?_⟩
  · simp only [MySMFModel.calc_loss_from_sumstats, hd]
    rw [one_div, ← div_eq_inv_mul]
  · simp only [MySMFModel.calc_loss_from_sumstats]
    exact div_nonneg (sum_zipWith_sq_nonneg _ _ _) (by positivity)
  · intro h
    simp only [MySMFModel.calc_loss_from_sumstats, h, sum_zipWith_sq_self,
      zero_div]

/-- Witness for C2 at a concrete input: `s = target = [10]`. -/
theorem loss_is_log_mse_witness :
    ((∀ x ∈ ([(10 : ℝ)] : List ℝ), 0 < x) ∧
     (∀ x ∈ (MySMFModel.mk ⟨[], [], 1, [(10 : ℝ)]⟩
         false).dynamic_data.target_sumstats, 0 < x) ∧
     ([(10 : ℝ)] : List ℝ).length =
       (MySMFModel.mk ⟨[], [], 1, [(10 : ℝ)]⟩
         false).dynamic_data.target_sumstats.length) ∧
    ((MySMFModel.mk ⟨[], [], 1, [(10 : ℝ)]⟩ false).calc_loss_from_sumstats
        [(10 : ℝ)] none =
      (1 / (([(10 : ℝ)] : List ℝ).length : ℝ)) *
        (List.zipWith (fun a b => (Real.logb 10 a - Real.logb 10 b) ^ 2)
          [(10 : ℝ)]
          (MySMFModel.mk ⟨[], [], 1, [(10 : ℝ)]⟩
            false).dynamic_data.target_sumstats).sum ∧
     0 ≤ (MySMFModel.mk ⟨[], [], 1, [(10 : ℝ)]⟩
        false).calc_loss_from_sumstats [(10 : ℝ)] none ∧
     (([(10 : ℝ)] : List ℝ) =
        (MySMFModel.mk ⟨[], [], 1, [(10 : ℝ)]⟩
          false).dynamic_data.target_sumstats →
       (MySMFModel.mk ⟨[], [], 1, [(10 : ℝ)]⟩ false).calc_loss_from_sumstats
         [(10 : ℝ)] none = 0)) :=
  ⟨⟨by norm_num, by norm_num, rfl⟩,
   loss_is_log_mse (MySMFModel.mk ⟨[], [], 1, [(10 : ℝ)]⟩ false) [(10 : ℝ)]
     none (by norm_num) (by norm_num) rfl⟩

/-- C3: purity / determinism of the local steps.  Two calls of
`calc_partial_sumstats_from_params` with the same params and the same
`dynamic_data` contents return identical PartialStat vectors, and two
calls of `calc_loss_from_sumstats` with the same sumstats and the same
`dynamic_data` return identical losses: both are pure functions of their
arguments and `dynamic_data`. -/
theorem local_steps_deterministic (m1 m2 : MySMFModel) (params : ParamTuple)
    (s : List ℝ) (aux : Option (List ℝ))
    (h : m1.dynamic_data = m2.dynamic_data) :
    m1.calc_partial_sumstats_from_params params =
      m2.calc_partial_sumstats_from_params params ∧
    m1.calc_loss_from_sumstats s aux = m2.calc_loss_from_sumstats s aux := by
  obtain ⟨d1, f1⟩ := m1
  obtain ⟨d2, f2⟩ := m2
  dsimp only at h
  cases h
  exact ⟨rfl, rfl⟩

/-- Witness for C3 at a concrete input: two model objects sharing the
same `dynamic_data` but with different `loss_func_has_aux` flags. -/
theorem local_steps_deterministic_witness :
    (MySMFModel.mk ⟨[(11 : ℝ)], [(9 : ℝ), 10], 1, [(1 : ℝ)]⟩
        false).dynamic_data =
      (MySMFModel.mk ⟨[(11 : ℝ)], [(9 : ℝ), 10], 1, [(1 : ℝ)]⟩
        true).dynamic_data ∧
    ((MySMFModel.mk ⟨[(11 : ℝ)], [(9 : ℝ), 10], 1, [(1 : ℝ)]⟩
        false).calc_partial_sumstats_from_params ⟨-2, 0.2⟩ =
      (MySMFModel.mk ⟨[(11 : ℝ)], [(9 : ℝ), 10], 1, [(1 : ℝ)]⟩
        true).calc_partial_sumstats_from_params ⟨-2, 0.2⟩ ∧
     (MySMFModel.mk ⟨[(11 : ℝ)], [(9 : ℝ), 10], 1, [(1 : ℝ)]⟩
        false).calc_loss_from_sumstats [(1 : ℝ)] none =
      (MySMFModel.mk ⟨[(11 : ℝ)], [(9 : ℝ), 10], 1, [(1 : ℝ)]⟩
        true).calc_loss_from_sumstats [(1 : ℝ)] none) :=
  ⟨rfl,
   local_steps_deterministic
     (MySMFModel.mk ⟨[(11 : ℝ)], [(9 : ℝ), 10], 1, [(1 : ℝ)]⟩ false)
     (MySMFModel.mk ⟨[(11 : ℝ)], [(9 : ℝ), 10], 1, [(1 : ℝ)]⟩ true)
     ⟨-2, 0.2⟩ [(1 : ℝ)] none rfl⟩

/-- C4: data sharding is an exhaustive, disjoint, contiguous partition.
For every `num_halos ≥ 1`, communicator size `S ≥ 1` and rank `r < S`,
`load_halo_masses` returns the `r`-th block of the split of the
`num_halos`-element mass array into `S` contiguous blocks; the first
`num_halos % S` blocks have `num_halos / S + 1` elements and the rest
have `num_halos / S` (sizes differ by at most 1), and concatenating the
blocks in ascending rank order reproduces the full mass array. -/
theorem load_halo_masses_partition (num_halos S r : ℕ) (slope mmin qmax : ℝ)
    (hn : 1 ≤ num_halos) (hS : 1 ≤ S) (hr : r < S) :
    (mhaloFull num_halos slope mmin qmax).length = num_halos ∧
    (array_split (mhaloFull num_halos slope mmin qmax) S).length = S ∧
    (array_split (mhaloFull num_halos slope mmin qmax) S).flatten =
      mhaloFull num_halos slope mmin qmax ∧
    load_halo_masses num_halos slope mmin qmax S r =
      (array_split (mhaloFull num_halos slope mmin qmax) S).getD r [] ∧
    (∀ i, i < S →
      ((array_split (mhaloFull num_halos slope mmin qmax) S).getD i []).length =
        if i < num_halos % S then num_halos / S + 1 else num_halos / S) := by
  refine ⟨mhaloFull_length _ _ _ _, array_split_length _ _,
    array_split_flatten _ _ hS, rfl, fun i hi => ?_⟩
  rw [array_split_getD_length _ _ _ hS hi, mhaloFull_length]

/-- Witness for C4 at a concrete input: 5 halos split over 3 ranks,
rank 1. -/
theorem load_halo_masses_partition_witness :
    (1 ≤ 5 ∧ 1 ≤ 3 ∧ 1 < 3) ∧
    ((mhaloFull 5 (-2) 1 (1/2)).length = 5 ∧
     (array_split (mhaloFull 5 (-2) 1 (1/2)) 3).length = 3 ∧
     (array_split (mhaloFull 5 (-2) 1 (1/2)) 3).flatten =
       mhaloFull 5 (-2) 1 (1/2) ∧
     load_halo_masses 5 (-2) 1 (1/2) 3 1 =
       (array_split (mhaloFull 5 (-2) 1 (1/2)) 3).getD 1 [] ∧
     (∀ i, i < 3 →
       ((array_split (mhaloFull 5 (-2) 1 (1/2)) 3).getD i []).length =
         if i < 5 % 3 then 5 / 3 + 1 else 5 / 3)) :=
  ⟨⟨by norm_num, by norm_num, by norm_num⟩,
   load_halo_masses_partition 5 3 1 (-2) 1 (1/2) (by norm_num) (by norm_num)
     (by norm_num)⟩

/-- C5: the PartialStat has a fixed, problem-defined length.  For a
bin-edge sequence `e0 :: rest` (length `B ≥ 1`),
`calc_partial_sumstats_from_params` returns exactly `B - 1` values, the
`i`-th being `calc_smf_bin` on the `i`-th consecutive pair of edges; in
the driver's configuration (`linspace 9 10 11`) this length is 10, equal
to the length of the driver's `target_sumstats`. -/
theorem partial_sumstats_length (m : MySMFModel) (params : ParamTuple)
    (e0 : ℝ) (rest : List ℝ)
    (he : m.dynamic_data.smf_bin_edges = e0 :: rest) :
    (m.calc_partial_sumstats_from_params params).length =
      m.dynamic_data.smf_bin_edges.length - 1 ∧
    (∀ i, i < rest.length →
      (m.calc_partial_sumstats_from_params params).getD i 0 =
        calc_smf_bin params ((e0 :: rest).getD i 0) (rest.getD i 0)
          m.dynamic_data.volume m.dynamic_data.log_halo_masses) ∧
    (∀ (n S r : ℕ) (p2 : ParamTuple),
      ((MySMFModel.mk (driverData n S r)
          false).calc_partial_sumstats_from_params p2).length = 10 ∧
      (driverData n S r).target_sumstats.length = 10) := by
  refine ⟨calc_partial_length m params, fun i hi => ?_, fun n S r p2 => ⟨?_, rfl⟩⟩
  · simp only [MySMFModel.calc_partial_sumstats_from_params, he]
    exact smfLoop_getD params m.dynamic_data.volume
      m.dynamic_data.log_halo_masses rest e0 i hi
  · rw [calc_partial_length]
    simp [driverData, linspace_length]

/-- Witness for C5 at a concrete input: bin edges `[9, 10]`. -/
theorem partial_sumstats_length_witness :
    (MySMFModel.mk ⟨[(11 : ℝ)], [(9 : ℝ), 10], 1, []⟩
        false).dynamic_data.smf_bin_edges = (9 : ℝ) :: [(10 : ℝ)] ∧
    (((MySMFModel.mk ⟨[(11 : ℝ)], [(9 : ℝ), 10], 1, []⟩
        false).calc_partial_sumstats_from_params ⟨-2, 0.2⟩).length =
      (MySMFModel.mk ⟨[(11 : ℝ)], [(9 : ℝ), 10], 1, []⟩
        false).dynamic_data.smf_bin_edges.length - 1 ∧
     (∀ i, i < ([(10 : ℝ)] : List ℝ).length →
       ((MySMFModel.mk ⟨[(11 : ℝ)], [(9 : ℝ), 10], 1, []⟩
          false).calc_partial_sumstats_from_params ⟨-2, 0.2⟩).getD i 0 =
         calc_smf_bin ⟨-2, 0.2⟩ (((9 : ℝ) :: [(10 : ℝ)]).getD i 0)
           (([(10 : ℝ)] : List ℝ).getD i 0)
           (MySMFModel.mk ⟨[(11 : ℝ)], [(9 : ℝ), 10], 1, []⟩
             false).dynamic_data.volume
           (MySMFModel.mk ⟨[(11 : ℝ)], [(9 : ℝ), 10], 1, []⟩
             false).dynamic_data.log_halo_masses) ∧
     (∀ (n S r : ℕ) (p2 : ParamTuple),
       ((MySMFModel.mk (driverData n S r)
           false).calc_partial_sumstats_from_params p2).length = 10 ∧
       (driverData n S r).target_sumstats.length = 10)) :=
  ⟨rfl,
   partial_sumstats_length
     (MySMFModel.mk ⟨[(11 : ℝ)], [(9 : ℝ), 10], 1, []⟩ false) ⟨-2, 0.2⟩
     9 [(10 : ℝ)] rfl⟩

/-- C6: the auxiliary input does not influence the loss: for every
sumstats vector and any two values of `sumstats_aux` (including `None`),
`calc_loss_from_sumstats` returns the same result, and a `MySMFModel`
built with the dataclass default declares `loss_func_has_aux = False`. -/
theorem loss_ignores_aux (m : MySMFModel) (s : List ℝ)
    (a1 a2 : Option (List ℝ)) :
    m.calc_loss_from_sumstats s a1 = m.calc_loss_from_sumstats s a2 ∧
    ∀ d : DynamicData, ({ dynamic_data := d } : MySMFModel).loss_func_has_aux
      = false :=
  ⟨rfl, fun _ => rfl⟩

/-- C7: the local shard and model data are read-only under evaluation:
the state-passing forms of the two method calls return the model with
every entry of `dynamic_data` unchanged, and their value components
agree with the pure functions. -/
theorem evaluation_preserves_dynamic_data (m : MySMFModel)
    (params : ParamTuple) (s : List ℝ) (aux : Option (List ℝ)) :
    ((m.calc_partial_sumstats_run params).2.dynamic_data.log_halo_masses =
        m.dynamic_data.log_halo_masses ∧
     (m.calc_partial_sumstats_run params).2.dynamic_data.smf_bin_edges =
        m.dynamic_data.smf_bin_edges ∧
     (m.calc_partial_sumstats_run params).2.dynamic_data.volume =
        m.dynamic_data.volume ∧
     (m.calc_partial_sumstats_run params).2.dynamic_data.target_sumstats =
        m.dynamic_data.target_sumstats) ∧
    ((m.calc_loss_run s aux).2.dynamic_data.log_halo_masses =
        m.dynamic_data.log_halo_masses ∧
     (m.calc_loss_run s aux).2.dynamic_data.smf_bin_edges =
        m.dynamic_data.smf_bin_edges ∧
     (m.calc_loss_run s aux).2.dynamic_data.volume =
        m.dynamic_data.volume ∧
     (m.calc_loss_run s aux).2.dynamic_data.target_sumstats =
        m.dynamic_data.target_sumstats) ∧
    (m.calc_partial_sumstats_run params).1 =
      m.calc_partial_sumstats_from_params params ∧
    (m.calc_loss_run s aux).1 = m.calc_loss_from_sumstats s aux :=
  ⟨⟨rfl, rfl, rfl, rfl⟩, ⟨rfl, rfl, rfl, rfl⟩, rfl, rfl⟩

/-- C8: `calc_smf_cdf` is a cumulative distribution function in its
first argument: for every `mean_logsm` and every `sigma_logsm > 0` the
value lies in `[0, 1]` and is monotonically non-decreasing in `logsm`. -/
theorem calc_smf_cdf_is_cdf (mean sigma : ℝ) (hs : 0 < sigma) :
    (∀ logsm, 0 ≤ calc_smf_cdf logsm mean sigma ∧
      calc_smf_cdf logsm mean sigma ≤ 1) ∧
    (∀ x y, x ≤ y → calc_smf_cdf x mean sigma ≤ calc_smf_cdf y mean sigma) :=
  ⟨fun logsm => ⟨calc_smf_cdf_nonneg logsm mean sigma,
      calc_smf_cdf_le_one logsm mean sigma⟩,
   fun _ _ h => calc_smf_cdf_mono mean sigma hs h⟩

/-- Witness for C8 at a concrete input: `mean = 0`, `sigma = 1`. -/
theorem calc_smf_cdf_is_cdf_witness :
    (0 : ℝ) < 1 ∧
    ((∀ logsm, 0 ≤ calc_smf_cdf logsm 0 1 ∧ calc_smf_cdf logsm 0 1 ≤ 1) ∧
     (∀ x y, x ≤ y → calc_smf_cdf x 0 1 ≤ calc_smf_cdf y 0 1)) :=
  ⟨by norm_num, calc_smf_cdf_is_cdf 0 1 (by norm_num)⟩

/-- Each bin of the SMF is nonnegative: a sum of `CDF(high) - CDF(low)`
terms with `low ≤ high`, divided by the volume and the bin width. -/
lemma calc_smf_bin_nonneg (p : ParamTuple) (lo hi V : ℝ) (ms : List ℝ)
    (hs : 0 < p.sigma_logsm) (hlh : lo ≤ hi) (hV : 0 ≤ V) :
    0 ≤ calc_smf_bin p lo hi V ms := by
  rw [calc_smf_bin]
  apply div_nonneg (div_nonneg ?_ hV) (by linarith)
  apply List.sum_nonneg
  intro x hx
  obtain ⟨m, _, rfl⟩ := List.mem_map.1 hx
  have h := calc_smf_cdf_mono (m + p.log_shmrat) p.sigma_logsm hs hlh
  simp only at h
  linarith

lemma smfLoop_nonneg (p : ParamTuple) (V : ℝ) (ms : List ℝ)
    (hs : 0 < p.sigma_logsm) (hV : 0 ≤ V) :
    ∀ (rest : List ℝ) (lo : ℝ), List.Chain (· < ·) lo rest →
      ∀ x ∈ smfLoop p V ms lo rest, 0 ≤ x
  | [], _, _, x, hx => by simp [smfLoop] at hx
  | hi :: rest, lo, hch, x, hx => by
    rw [List.chain_cons] at hch
    simp only [smfLoop] at hx
    rcases List.mem_cons.1 hx with rfl | hx'
    · exact calc_smf_bin_nonneg p lo hi V ms hs hch.1.le hV
    · exact smfLoop_nonneg p V ms hs hV rest hi hch.2 x hx'

/-- C9: every component of the partial summary statistic is
nonnegative, for every `params` with `sigma_logsm > 0`, strictly
increasing bin edges, positive volume, and every log-halo-mass shard. -/
theorem partial_sumstats_entries_nonneg (m : MySMFModel)
    (params : ParamTuple) (hs : 0 < params.sigma_logsm)
    (hedges : m.dynamic_data.smf_bin_edges.Chain' (· < ·))
    (hV : 0 < m.dynamic_data.volume) :
    ∀ x ∈ m.calc_partial_sumstats_from_params params, 0 ≤ x := by
  intro x hx
  rcases hE : m.dynamic_data.smf_bin_edges with _ | ⟨e0, rest⟩
  · simp only [MySMFModel.calc_partial_sumstats_from_params, hE] at hx
    simp at hx
  · simp only [MySMFModel.calc_partial_sumstats_from_params, hE] at hx
    rw [hE] at hedges
    exact smfLoop_nonneg params m.dynamic_data.volume
      m.dynamic_data.log_halo_masses hs hV.le rest e0 hedges x hx

/-- Witness for C9 at a concrete input. -/
theorem partial_sumstats_entries_nonneg_witness :
    ((0 : ℝ) < (ParamTuple.mk (-2) 0.2).sigma_logsm ∧
     (MySMFModel.mk ⟨[(11 : ℝ)], [(9 : ℝ), 10], 1, []⟩
        false).dynamic_data.smf_bin_edges.Chain' (· < ·) ∧
     (0 : ℝ) < (MySMFModel.mk ⟨[(11 : ℝ)], [(9 : ℝ), 10], 1, []⟩
        false).dynamic_data.volume) ∧
    (∀ x ∈ (MySMFModel.mk ⟨[(11 : ℝ)], [(9 : ℝ), 10], 1, []⟩
        false).calc_partial_sumstats_from_params ⟨-2, 0.2⟩, 0 ≤ x) :=
  ⟨⟨by norm_num, by norm_num [List.chain'_cons], by norm_num⟩,
   partial_sumstats_entries_nonneg
     (MySMFModel.mk ⟨[(11 : ℝ)], [(9 : ℝ), 10], 1, []⟩ false) ⟨-2, 0.2⟩
     (by norm_num) (by norm_num [List.chain'_cons]) (by norm_num)⟩

/-- C10: with `slope = -2` (so the exponent is `-1`) and `0 ≤ qmax < 1`,
the halo masses produced by `load_halo_masses` are globally sorted in
non-decreasing order across rank order: the full array is sorted, each
rank's shard is sorted ascending, every element of a lower rank's shard
is `≤` every element of a higher rank's shard, and — all shards being
non-empty when `comm.size ≤ num_halos` — the first element of rank 0's
shard is the global minimum and the last element of the last rank's
shard is the global maximum. -/
theorem load_halo_masses_globally_sorted (num_halos S : ℕ) (mmin qmax : ℝ)
    (hm : 0 < mmin) (hq0 : 0 ≤ qmax) (hq1 : qmax < 1) (hS : 1 ≤ S)
    (hSn : S ≤ num_halos) :
    (mhaloFull num_halos (-2) mmin qmax).Sorted (· ≤ ·) ∧
    (∀ r, (load_halo_masses num_halos (-2) mmin qmax S r).Sorted (· ≤ ·)) ∧
    (∀ r, r < S → load_halo_masses num_halos (-2) mmin qmax S r ≠ []) ∧
    (∀ r1 r2, r1 < r2 →
      ∀ x ∈ load_halo_masses num_halos (-2) mmin qmax S r1,
      ∀ y ∈ load_halo_masses num_halos (-2) mmin qmax S r2, x ≤ y) ∧
    (∀ x ∈ mhaloFull num_halos (-2) mmin qmax,
      (load_halo_masses num_halos (-2) mmin qmax S 0).headI ≤ x ∧
      x ≤ (load_halo_masses num_halos (-2) mmin qmax S (S - 1)).getLastD 0) := by
  have hsorted : (mhaloFull num_halos (-2) mmin qmax).Sorted (· ≤ ·) :=
    mhaloFull_sorted num_halos mmin qmax hm.le hq0 hq1
  have hflat : (array_split (mhaloFull num_halos (-2) mmin qmax) S).flatten =
      mhaloFull num_halos (-2) mmin qmax := array_split_flatten _ _ hS
  have hsf : (array_split (mhaloFull num_halos (-2) mmin qmax) S).flatten.Sorted
      (· ≤ ·) := by rw [hflat]; exact hsorted
  have hlen : (array_split (mhaloFull num_halos (-2) mmin qmax) S).length = S :=
    array_split_length _ _
  have hfull_len : (mhaloFull num_halos (-2) mmin qmax).length = num_halos :=
    mhaloFull_length _ _ _ _
  have hne : ∀ sh ∈ array_split (mhaloFull num_halos (-2) mmin qmax) S,
      sh ≠ [] :=
    array_split_blocks_ne_nil _ _ hS (by rw [hfull_len]; exact hSn)
  have hload : ∀ r, load_halo_masses num_halos (-2) mmin qmax S r =
      (array_split (mhaloFull num_halos (-2) mmin qmax) S).getD r [] :=
    fun r => rfl
  have hsh_sorted : ∀ r,
      (load_halo_masses num_halos (-2) mmin qmax S r).Sorted (· ≤ ·) := by
    intro r
    rw [hload]
    rcases getD_mem_or_nil (array_split (mhaloFull num_halos (-2) mmin qmax) S)
      r with h | h
    · exact sorted_blocks_of_sorted_flatten _ hsf _ h
    · rw [h]; exact List.sorted_nil
  have hsh_ne : ∀ r, r < S →
      load_halo_masses num_halos (-2) mmin qmax S r ≠ [] := by
    intro r hr
    rw [hload, getD_eq_getElem_of_lt _ _ (by omega)]
    exact hne _ (List.getElem_mem _)
  have hcross : ∀ r1 r2, r1 < r2 →
      ∀ x ∈ load_halo_masses num_halos (-2) mmin qmax S r1,
      ∀ y ∈ load_halo_masses num_halos (-2) mmin qmax S r2, x ≤ y := by
    intro r1 r2 h12 x hx y hy
    rw [hload] at hx hy
    exact cross_blocks_of_sorted_flatten _ hsf r1 r2 h12 x hx y hy
  refine ⟨hsorted, hsh_sorted, hsh_ne, hcross, ?_⟩
  intro x hx
  rw [← hflat] at hx
  obtain ⟨l, hl, hxl⟩ := List.mem_flatten.1 hx
  obtain ⟨i, hi, rfl⟩ := List.getElem_of_mem hl
  have hgetD : (array_split (mhaloFull num_halos (-2) mmin qmax) S).getD i [] =
      (array_split (mhaloFull num_halos (-2) mmin qmax) S)[i] :=
    getD_eq_getElem_of_lt _ _ hi
  have hxi : x ∈ (array_split (mhaloFull num_halos (-2) mmin qmax) S).getD i []
    := by rw [hgetD]; exact hxl
  constructor
  · have h0ne : load_halo_masses num_halos (-2) mmin qmax S 0 ≠ [] :=
      hsh_ne 0 (by omega)
    have hmem0 : (load_halo_masses num_halos (-2) mmin qmax S 0).headI ∈
        load_halo_masses num_halos (-2) mmin qmax S 0 := headI_mem _ h0ne
    by_cases hi0 : i = 0
    · subst hi0
      exact sorted_headI_le _ (hsh_sorted 0) x (by rw [hload]; exact hxi)
    · exact hcross 0 i (by omega) _ hmem0 x (by rw [hload]; exact hxi)
  · have hLne : load_halo_masses num_halos (-2) mmin qmax S (S - 1) ≠ [] :=
      hsh_ne (S - 1) (by omega)
    have hmemL : (load_halo_masses num_halos (-2) mmin qmax S (S - 1)).getLastD 0
        ∈ load_halo_masses num_halos (-2) mmin qmax S (S - 1) :=
      getLastD_mem _ _ hLne
    by_cases hiL : i = S - 1
    · subst hiL
      exact sorted_le_getLastD _ 0 (hsh_sorted (S - 1)) x
        (by rw [hload]; exact hxi)
    · have hiS : i < S - 1 := by omega
      exact hcross i (S - 1) hiS x (by rw [hload]; exact hxi) _ hmemL

/-- Witness for C10 at a concrete input: 5 halos over 3 ranks,
`mmin = 1`, `qmax = 1/2`. -/
theorem load_halo_masses_globally_sorted_witness :
    ((0 : ℝ) < 1 ∧ (0 : ℝ) ≤ 1/2 ∧ (1 : ℝ)/2 < 1 ∧ 1 ≤ 3 ∧ 3 ≤ 5) ∧
    ((mhaloFull 5 (-2) 1 (1/2)).Sorted (· ≤ ·) ∧
     (∀ r, (load_halo_masses 5 (-2) 1 (1/2) 3 r).Sorted (· ≤ ·)) ∧
     (∀ r, r < 3 → load_halo_masses 5 (-2) 1 (1/2) 3 r ≠ []) ∧
     (∀ r1 r2, r1 < r2 →
       ∀ x ∈ load_halo_masses 5 (-2) 1 (1/2) 3 r1,
       ∀ y ∈ load_halo_masses 5 (-2) 1 (1/2) 3 r2, x ≤ y) ∧
     (∀ x ∈ mhaloFull 5 (-2) 1 (1/2),
       (load_halo_masses 5 (-2) 1 (1/2) 3 0).headI ≤ x ∧
       x ≤ (load_halo_masses 5 (-2) 1 (1/2) 3 (3 - 1)).getLastD 0)) :=
  ⟨⟨by norm_num, by norm_num, by norm_num, by norm_num, by norm_num⟩,
   load_halo_masses_globally_sorted 5 3 1 (1/2) (by norm_num) (by norm_num)
     (by norm_num) (by norm_num) (by norm_num)⟩
